import Mathlib

/-!
Shallow embedding of the DACUM backend core (src/server.js): the CP
document model with its structural validator and lock state machine, the
lexical clustering preview, the reference-catalog index build, and the
cosine-similarity matching engine.

Modelling conventions, used throughout:
- JavaScript objects with possibly-absent keys become structures with
  `Option` fields; JS truthiness of a string is "not the empty string".
- The network-bound collaborators (LLM text generation, embedding
  service, page crawling) are externalized as explicit inputs: the
  deterministic code around them is embedded faithfully.
- Machine floats are modelled by exact arithmetic: `ℚ` where the code
  only compares ratios (clustering), `ℝ` where square roots are taken
  (cosine similarity); the spec itself states the cosine claims in
  exact arithmetic.
-/

namespace Dacum

/-- JS `a || b || c || ""` over possibly-absent strings: the first
truthy (non-empty) value, else `""`. -/
def jsOr : List (Option String) → String
  | [] => ""
  | o :: rest => let s := o.getD ""; if s = "" then jsOr rest else s

/-- JS `a || b || ... || d` where the final default `d` is a non-empty
literal. -/
def jsOrD (l : List (Option String)) (d : String) : String :=
  let s := jsOr l
  if s = "" then d else s

/-! Character-level implementations of the string primitives the code
uses (`trim`, `toLowerCase`, `toUpperCase`, `split`).  They compute by
structural recursion over `String.data`, so concrete runs reduce inside
the kernel; on the ASCII data at issue they agree with JS. -/

/-- Leading-whitespace strip at character level. -/
def jsTrimLeft (s : String) : String :=
  String.mk (s.data.dropWhile Char.isWhitespace)

/-- JS `String.prototype.trim`: strip leading and trailing whitespace. -/
def jsTrim (s : String) : String :=
  String.mk
    (((s.data.dropWhile Char.isWhitespace).reverse.dropWhile Char.isWhitespace).reverse)

/-- JS `toLowerCase` (ASCII). -/
def jsToLower (s : String) : String :=
  String.mk (s.data.map Char.toLower)

/-- JS `toUpperCase` (ASCII). -/
def jsToUpper (s : String) : String :=
  String.mk (s.data.map Char.toUpper)

/-- Split on a character predicate, keeping empty pieces (the JS
`split(/\s+/)` on already-collapsed separators, before the
`filter(Boolean)`). -/
def splitChars (sep : Char → Bool) : List Char → List Char → List String
  | [], acc => [String.mk acc.reverse]
  | c :: cs, acc =>
    if sep c then String.mk acc.reverse :: splitChars sep cs []
    else splitChars sep cs (c :: acc)

/-- Decimal parse of a digit-only character list (the semantics of
`String.toNat?`, structurally). -/
def charsToNat? (l : List Char) : Option ℕ :=
  if l.isEmpty then none
  else if l.all Char.isDigit then
    some (l.foldl (fun n c => n * 10 + (c.toNat - '0'.toNat)) 0)
  else none

/-- Dynamic value found in a work step's `pc` key: absent, a plain
string (the NEW document shape written by `generateCpDraft`), or a
verb–object–qualifier record (the LEGACY shape of the older generator).
JS `String()` of the record form yields "[object Object]". -/
inductive PcVal where
  | undef : PcVal
  | str : String → PcVal
  | obj : String → String → String → String → PcVal
deriving DecidableEq

/-- Verb component of a legacy pc record. -/
def PcVal.verbOf : PcVal → String
  | .obj v _ _ _ => v
  | _ => ""

/-- Work step as `validateCp` reads it (fields `pc`,
`performanceCriteria`, `criteria`, `wsCode`, `wsNo`, `wsId` of the JS
object). -/
structure StepD where
  pc : PcVal := .undef
  performanceCriteria : Option String := none
  criteria : Option String := none
  wsCode : Option String := none
  wsNo : Option String := none
  wsId : Option String := none
deriving DecidableEq

/-- Work activity as `validateCp` reads it (`ws` for the NEW shape,
`workSteps` for the LEGACY shape, plus the title synonym chain). -/
structure WaD where
  ws : Option (List StepD) := none
  workSteps : Option (List StepD) := none
  waTitle : Option String := none
  title : Option String := none
  name : Option String := none
  waId : Option String := none
  waCode : Option String := none
deriving DecidableEq

/-- Typed validation issue (level is "ERROR", "WARN" or "WARNING" in the
source). -/
structure Issue where
  level : String
  code : String
  msg : String
deriving DecidableEq

/-- Stats block of `validateCp`'s result. -/
structure VStats where
  waCount : ℕ
  minWsOk : Bool
  onePcOk : Bool
  pastTenseOk : Bool
  mode : String
deriving DecidableEq

/-- Result shape of `validateCp`. -/
structure ValidationResult where
  ok : Bool
  minRulesPassed : Bool
  issues : List Issue
  stats : VStats
deriving DecidableEq

/-- Audit block of a CP document (`cp.audit`). -/
structure AuditD where
  lockedAt : Option String := none
  lockedBy : Option String := none
  updatedAt : Option String := none
  updatedBy : Option (List String) := none
deriving DecidableEq

/-- CP document root as the CP endpoints read and write it. -/
structure CpD where
  waItems : Option (List WaD) := none
  workActivities : Option (List WaD) := none
  status : Option String := none
  validation : Option ValidationResult := none
  audit : Option AuditD := none
  cpId : Option String := none
deriving DecidableEq

/-- JS word character (`\w` is `[A-Za-z0-9_]`). -/
def isWordChar (c : Char) : Bool :=
  c.isAlpha || c.isDigit || c = '_'

/-- Test of the regex `/^telah\b/i`: a case-insensitive "telah" prefix
followed by the end of the string or a non-word character. -/
def startsTelah (s : String) : Bool :=
  let cs := s.data
  ((cs.take 5).map Char.toLower = "telah".data) &&
    (decide (cs.length = 5) || !(isWordChar (cs.getD 5 ' ')))

/-- Coercion of a step's pc chain:
`String(step?.pc || step?.performanceCriteria || step?.criteria || "").trim()`. -/
def pcStringOf (s : StepD) : String :=
  (match s.pc with
   | .obj _ _ _ _ => "[object Object]"
   | .str t => if t = "" then jsOr [s.performanceCriteria, s.criteria] else t
   | .undef => jsOr [s.performanceCriteria, s.criteria])
  |> jsTrim

/-- Step identifier used in messages:
`String(step?.wsCode || step?.wsNo || step?.wsId || `i+1.j+1`).trim()`. -/
def wsIdOf (i j : ℕ) (s : StepD) : String :=
  jsTrim (jsOrD [s.wsCode, s.wsNo, s.wsId] (toString (i + 1) ++ "." ++ toString (j + 1)))

/-- WA title fallback chain used in messages. -/
def waTitleOf (i : ℕ) (wa : WaD) : String :=
  jsTrim (jsOrD [wa.waTitle, wa.title, wa.name, wa.waId, wa.waCode]
    ("WA#" ++ toString (i + 1)))

/-- MIN_WA issue (ERROR). -/
def minWaIssue : Issue :=
  ⟨"ERROR", "MIN_WA", "Setiap CU mesti ada sekurang-kurangnya 3 WA."⟩

/-- MIN_WS issue (ERROR) for one WA. -/
def minWsIssue (waTitle : String) : Issue :=
  ⟨"ERROR", "MIN_WS", "WA \"" ++ waTitle ++ "\" mesti ada sekurang-kurangnya 3 WS."⟩

/-- MISSING_PC issue (ERROR) for one WS. -/
def missingPcIssue (wsId : String) : Issue :=
  ⟨"ERROR", "MISSING_PC", "WS \"" ++ wsId ++ "\" mesti ada 1 PC."⟩

/-- PC_NOT_PAST_TENSE issue (level "WARN", not blocking). -/
def pastTenseIssue (wsId : String) : Issue :=
  ⟨"WARN", "PC_NOT_PAST_TENSE",
    "PC untuk WS \"" ++ wsId ++ "\" sebaiknya bermula dengan \"Telah ...\" (ayat past tense yang boleh diukur)."⟩

/-- Body of the step loop of `validateCp`: the issues this step pushes,
its contribution to `onePcOk`, and its contribution to `pastTenseOk`. -/
def stepCheck (i j : ℕ) (s : StepD) : List Issue × Bool × Bool :=
  let pc := pcStringOf s
  let wsId := wsIdOf i j s
  if pc = "" then ([missingPcIssue wsId], false, true)
  else if !(startsTelah pc) then ([pastTenseIssue wsId], true, false)
  else ([], true, true)

/-- Step loop of `validateCp` over one WA's steps, from step index `j`. -/
def stepsCheck (i : ℕ) : ℕ → List StepD → List Issue × Bool × Bool
  | _, [] => ([], true, true)
  | j, s :: rest =>
    let r := stepCheck i j s
    let r2 := stepsCheck i (j + 1) rest
    (r.1 ++ r2.1, r.2.1 && r2.2.1, r.2.2 && r2.2.2)

/-- Body of the WA loop of `validateCp`: issues of one WA (its MIN_WS
check then its steps), and its contributions to the `minWsOk`,
`onePcOk`, `pastTenseOk` flags. -/
def waCheck (i : ℕ) (wa : WaD) : List Issue × Bool × Bool × Bool :=
  let wsList := wa.ws.getD (wa.workSteps.getD [])
  let waTitle := waTitleOf i wa
  let minPart : List Issue × Bool :=
    if wsList.length < 3 then ([minWsIssue waTitle], false) else ([], true)
  let sc := stepsCheck i 0 wsList
  (minPart.1 ++ sc.1, minPart.2, sc.2.1, sc.2.2)

/-- WA loop of `validateCp`, from WA index `i`. -/
def wasCheck : ℕ → List WaD → List Issue × Bool × Bool × Bool
  | _, [] => ([], true, true, true)
  | i, wa :: rest =>
    let r := waCheck i wa
    let r2 := wasCheck (i + 1) rest
    (r.1 ++ r2.1, r.2.1 && r2.2.1, r.2.2.1 && r2.2.2.1, r.2.2.2 && r2.2.2.2)

/-- The structural validator `validateCp` of src/server.js (lines
1932-2024): normalizes the WA list (NEW `waItems` else LEGACY
`workActivities`), checks MIN_WA, MIN_WS, MISSING_PC (ERRORs) and the
past-tense heuristic (WARN), and returns `ok = minRulesPassed`. -/
def validateCp (cp : CpD) : ValidationResult :=
  let waList := cp.waItems.getD (cp.workActivities.getD [])
  let waCount := waList.length
  let headIssues := if waCount < 3 then [minWaIssue] else []
  let rest := wasCheck 0 waList
  let minRulesPassed := decide (3 ≤ waCount) && rest.2.1 && rest.2.2.1
  { ok := minRulesPassed
    minRulesPassed := minRulesPassed
    issues := headIssues ++ rest.1
    stats :=
      { waCount := waCount
        minWsOk := rest.2.1
        onePcOk := rest.2.2.1
        pastTenseOk := rest.2.2.2
        mode :=
          if cp.waItems.isSome then "NEW_WAITEMS"
          else if cp.workActivities.isSome then "LEGACY_WORKACTIVITIES"
          else "EMPTY" } }

/-- Number of ERROR-level issues in a list. -/
def errCount (issues : List Issue) : ℕ :=
  issues.countP (fun i => i.level == "ERROR")

/-! Version store for CP documents.  The JS store is
`cpStore[sessionId][cuKey] = { latestVersion, versions: [{version, cp}] }`;
the CP endpoints address exactly one `(sessionId, cuKey)` bucket per
request, so the embedding models a single bucket's evolution. -/

/-- One entry of a bucket's version history. -/
structure VEntry where
  version : String
  cp : CpD
deriving DecidableEq

/-- Per-(sessionId, cuKey) version bucket. -/
structure Bucket where
  latestVersion : Option String := none
  versions : List VEntry := []
deriving DecidableEq

/-- Version-label parser of `_saveCpVersion`:
`Number(String(lastV).replace(/^v/i, "")) || 1`, for the integer labels
("v1", "v2", ...) the store itself writes. -/
def parseVerNum (s : String) : ℕ :=
  let t :=
    match s.data with
    | c :: rest => if c = 'v' ∨ c = 'V' then rest else s.data
    | [] => []
  match charsToNat? t with
  | some n => if n = 0 then 1 else n
  | none => 1

/-- Version label for number `n`. -/
def mkVer (n : ℕ) : String := "v" ++ toString n

/-- Label of the last entry with the `|| "v1"` fallback of
`_saveCpVersion`. -/
def lastVersionLabel (vs : List VEntry) : String :=
  match vs.getLast? with
  | some e => if e.version = "" then "v1" else e.version
  | none => "v1"

/-- The `nextV` computation of `_saveCpVersion`. -/
def nextVersionLabel (vs : List VEntry) (bump : Bool) : String :=
  if vs.isEmpty then "v1"
  else
    let lastV := lastVersionLabel vs
    if bump then mkVer (parseVerNum lastV + 1) else lastV

/-- The store write `_saveCpVersion` (src/server.js lines 1432-1451):
computes `nextV`, overwrites an existing entry carrying that label or
else appends, and updates `latestVersion`.  Returns the written label. -/
def saveCpVersion (b : Bucket) (cp : CpD) (bump : Bool) : Bucket × String :=
  let nextV := nextVersionLabel b.versions bump
  let payload : VEntry := ⟨nextV, cp⟩
  let versions :=
    match b.versions.findIdx? (fun e => e.version == nextV) with
    | some i => b.versions.set i payload
    | none => b.versions ++ [payload]
  (⟨some nextV, versions⟩, nextV)

/-- In-place mutation of the object held by the last version entry (JS
aliasing: handlers mutate `latest.cp`, which is the same object the
entry references). -/
def updateLastCp (vs : List VEntry) (cp : CpD) : List VEntry :=
  match vs.getLast? with
  | none => vs
  | some e => vs.dropLast ++ [⟨e.version, cp⟩]

/-- The PUT /api/cp/:sessionId/:cuId handler (src/server.js lines
2118-2138) on its per-bucket core: re-validates the incoming document,
stamps audit data, and stores it with `bumpVersion = false` (overwrite
of the latest label).  `now` stands for `nowISO()`.  Returns the new
bucket, the written label and the validation. -/
def saveCp (b : Bucket) (cp : CpD) (now : String) : Bucket × String × ValidationResult :=
  let validation := validateCp cp
  let audit := cp.audit.getD {}
  let ub := audit.updatedBy.getD []
  let ub := if "FACILITATOR" ∈ ub then ub else ub ++ ["FACILITATOR"]
  let cp :=
    { cp with
      validation := some validation
      audit := some { audit with updatedAt := some now, updatedBy := some ub } }
  let r := saveCpVersion b cp false
  (r.1, r.2, validation)

/-- Outcome discriminator of the lock endpoint. -/
inductive LockStatus where
  | badRequest : LockStatus
  | versionMissing : LockStatus
  | rejected : LockStatus
  | locked : LockStatus
deriving DecidableEq

/-- What the lock endpoint leaves behind: the HTTP-visible outcome, the
issue list it reports, the assigned cpId and version on success, and the
bucket after the handler ran. -/
structure LockOut where
  status : LockStatus
  issues : List Issue := []
  cpId : Option String := none
  version : Option String := none
  bucket : Bucket
deriving DecidableEq

/-- The POST /api/cp/lock handler (src/server.js lines 2151-2181) on its
per-bucket core.  `sessionId`, `cuId` and `lockedBy` stand for the
already-extracted request fields (`cuId` trimmed and lower-cased,
`lockedBy` defaulted to "PANEL" at extraction); `now` stands for
`nowISO()`.  The handler validates the latest version's document,
mutates its `validation` field in place, and on zero ERROR issues marks
it LOCKED, stamps the audit, appends a bumped version entry and assigns
`cpId` (all through the same aliased document object). -/
def lockCp (b : Bucket) (sessionId cuId lockedBy now : String) : LockOut :=
  if sessionId = "" ∨ cuId = "" then ⟨.badRequest, [], none, none, b⟩
  else
    match b.versions.getLast? with
    | none => ⟨.versionMissing, [], none, none, b⟩
    | some latest =>
      let cp0 := latest.cp
      let validation := validateCp cp0
      let hasError := validation.issues.any (fun x => x.level == "ERROR")
      if hasError then
        ⟨.rejected, validation.issues, none, none,
          ⟨b.latestVersion, updateLastCp b.versions { cp0 with validation := some validation }⟩⟩
      else
        let ver := nextVersionLabel b.versions true
        let audit := cp0.audit.getD {}
        let cpL :=
          { cp0 with
            validation := some validation
            status := some "LOCKED"
            audit := some { audit with lockedAt := some now, lockedBy := some lockedBy }
            cpId := some (sessionId ++ "-" ++ cuId ++ "-" ++ ver) }
        let b1 : Bucket := ⟨b.latestVersion, updateLastCp b.versions cpL⟩
        let r := saveCpVersion b1 cpL true
        ⟨.locked, validation.issues, cpL.cpId, some r.2, r.1⟩

/-! Draft generation (`generateCpDraft`, src/server.js lines 1743-1930).
The LLM call and its JSON parsing are network-bound and externalized: an
oracle `llm : ℕ → Option (List WsRowRaw)` gives, for the i-th WA, the
`ws` array of `tryParseJson(await callLLM(prompt))` when that is an
array, and `none` when the call or the parse failed. -/

/-- Raw WA record of the CU passed to the generator, with the synonym
chains the generator reads. -/
structure WaRaw where
  waCode : Option String := none
  waId : Option String := none
  id : Option String := none
  code : Option String := none
  waTitle : Option String := none
  title : Option String := none
  name : Option String := none
deriving DecidableEq

/-- Raw CU record passed to the generator. -/
structure CuRaw where
  cuCode : Option String := none
  cuId : Option String := none
  id : Option String := none
  code : Option String := none
  cuTitle : Option String := none
  title : Option String := none
  name : Option String := none
  wa : Option (List WaRaw) := none
  was : Option (List WaRaw) := none
deriving DecidableEq

/-- Generation options (`ai` body field); `Number(ai?.wsMin || 3)` makes
0 and absence both fall back, likewise `pcPerWs`. -/
structure AiOpts where
  wsMin : Option ℕ := none
  pcPerWs : Option ℕ := none
  language : Option String := none
deriving DecidableEq

/-- One element of the parsed LLM response's `ws` array. -/
structure WsRowRaw where
  wsTitle : Option String := none
  pc : Option String := none
deriving DecidableEq

/-- Normalized (trimmed, non-optional) WS/PC row. -/
structure WsRow where
  wsTitle : String
  pc : String
deriving DecidableEq

/-- Work step of the generated draft. -/
structure DraftWs where
  wsCode : String
  wsTitle : String
  pc : String
deriving DecidableEq

/-- Work activity of the generated draft. -/
structure DraftWa where
  waCode : String
  waTitle : String
  ws : List DraftWs
deriving DecidableEq

/-- Rules block echoed in the draft. -/
structure DraftRules where
  waLockedFromCpc : Bool
  wsMin : ℕ
  pcPerWs : ℕ
  pcStyle : String
  measurable : Bool
deriving DecidableEq

/-- Output document of `generateCpDraft`. -/
structure CpDraft where
  ok : Bool
  kind : String
  sessionId : String
  lang : String
  generatedAt : String
  cuCode : String
  cuTitle : String
  waItems : List DraftWa
  rules : DraftRules
deriving DecidableEq

/-- Locked (normalized) WA: code lower-cased and trimmed, title trimmed. -/
structure WaLocked where
  waCode : String
  waTitle : String
deriving DecidableEq

/-- The `waItemsLocked` normalization of `generateCpDraft`. -/
def waItemsLockedOf (cu : CuRaw) : List WaLocked :=
  ((cu.wa.getD (cu.was.getD [])).map fun w =>
    (⟨jsToLower (jsTrim (jsOr [w.waCode, w.waId, w.id, w.code])),
      jsTrim (jsOr [w.waTitle, w.title, w.name])⟩ : WaLocked)).filter
    fun w => w.waCode != "" && w.waTitle != ""

/-- The deterministic `fallbackWsPc` template list, truncated to
`max 3 wsMin` entries (the base list has 4). -/
def fallbackWsPc (waTitle : String) (wsMin : ℕ) : List WsRow :=
  let base : List WsRow :=
    [⟨"Semak keperluan kerja bagi \"" ++ waTitle ++ "\" berdasarkan SOP/rekod berkaitan.",
      "Keperluan kerja telah disemak dan direkodkan berdasarkan SOP/rekod yang berkaitan."⟩,
     ⟨"Sediakan dokumen/borang/jadual pelaksanaan untuk \"" ++ waTitle ++ "\".",
      "Dokumen/borang/jadual pelaksanaan telah disediakan lengkap dan boleh disemak."⟩,
     ⟨"Laksanakan \"" ++ waTitle ++ "\" dan rekodkan pelaksanaan serta bukti kerja.",
      "Pelaksanaan kerja telah direkodkan bersama bukti seperti laporan/rekod/borang yang berkaitan."⟩,
     ⟨"Semak hasil pelaksanaan \"" ++ waTitle ++ "\" dan buat tindakan susulan jika perlu.",
      "Hasil pelaksanaan telah disemak dan tindakan susulan telah direkodkan jika diperlukan."⟩]
  base.take (max 3 wsMin)

/-- The `ws` rows selected for the i-th WA: the AI branch when the
parsed response has a non-empty `ws` array (normalize, filter empties,
pad with fallback rows up to `wsMin`), the fallback template otherwise. -/
def wsRowsFor (llm : ℕ → Option (List WsRowRaw)) (i : ℕ) (waTitle : String)
    (wsMin : ℕ) : List WsRow :=
  match llm i with
  | some parsedWs =>
    if parsedWs.isEmpty then fallbackWsPc waTitle wsMin
    else
      let wsRows := (parsedWs.map fun x =>
        (⟨jsTrim (x.wsTitle.getD ""), jsTrim (x.pc.getD "")⟩ : WsRow)).filter
        fun x => x.wsTitle != "" && x.pc != ""
      if wsRows.length < wsMin then
        (wsRows ++ fallbackWsPc waTitle (wsMin - wsRows.length)).take wsMin
      else wsRows
  | none => fallbackWsPc waTitle wsMin

/-- Final per-step normalization of the generator: hierarchical wsCode
`waIndex1.j+1`, non-empty title (else "xxx"), and a PC forced to start
with "Telah" (else "Telah xxx" when empty). -/
def mkDraftWs (waIndex1 j : ℕ) (row : WsRow) : DraftWs :=
  let wsCode := toString waIndex1 ++ "." ++ toString (j + 1)
  let pc0 := jsTrim row.pc
  let pc := if pc0 = "" then pc0
            else if startsTelah pc0 then pc0
            else "Telah " ++ jsTrimLeft pc0
  let t := jsTrim row.wsTitle
  ⟨wsCode, if t = "" then "xxx" else t, if pc = "" then "Telah xxx" else pc⟩

/-- Step map of the generator (`wsRows.slice(0, wsMin).map(...)`),
from step index `j`. -/
def draftSteps (waIndex1 : ℕ) : ℕ → List WsRow → List DraftWs
  | _, [] => []
  | j, row :: rest => mkDraftWs waIndex1 j row :: draftSteps waIndex1 (j + 1) rest

/-- WA loop of the generator, from WA index `i` (0-based). -/
def draftWas (llm : ℕ → Option (List WsRowRaw)) (wsMin : ℕ) :
    ℕ → List WaLocked → List DraftWa
  | _, [] => []
  | i, wa :: rest =>
    let wsRows := wsRowsFor llm i wa.waTitle wsMin
    (⟨wa.waCode, wa.waTitle, draftSteps (i + 1) 0 (wsRows.take wsMin)⟩ : DraftWa) ::
      draftWas llm wsMin (i + 1) rest

/-- The draft generator `generateCpDraft` (deterministic core; the LLM
response per WA comes from the `llm` oracle, `nowIso` stands for the
timestamp). -/
def generateCpDraft (sessionId : String) (cu : CuRaw) (ai : AiOpts)
    (llm : ℕ → Option (List WsRowRaw)) (nowIso : String) : CpDraft :=
  let cuCode := jsToLower (jsTrim (jsOr [cu.cuCode, cu.cuId, cu.id, cu.code]))
  let cuTitle := jsTrim (jsOr [cu.cuTitle, cu.title, cu.name])
  let wsMin := max 3 (match ai.wsMin with | some n => if n = 0 then 3 else n | none => 3)
  let pcPerWs := max 1 (match ai.pcPerWs with | some n => if n = 0 then 1 else n | none => 1)
  let language := jsToUpper (jsOrD [ai.language] "MS")
  { ok := true
    kind := "cpDraft"
    sessionId := sessionId
    lang := language
    generatedAt := nowIso
    cuCode := cuCode
    cuTitle := cuTitle
    waItems := draftWas llm wsMin 0 (waItemsLockedOf cu)
    rules := ⟨true, wsMin, pcPerWs, "past_tense_ms", true⟩ }

/-- A generated draft step viewed as the dynamic step `validateCp`
reads: its `pc` key holds the string, its `wsCode` key the code. -/
def draftStepToStepD (s : DraftWs) : StepD :=
  { pc := .str s.pc, wsCode := some s.wsCode }

/-- A generated draft WA viewed as the dynamic WA `validateCp` reads. -/
def draftWaToWaD (wa : DraftWa) : WaD :=
  { ws := some (wa.ws.map draftStepToStepD)
    waTitle := some wa.waTitle
    waCode := some wa.waCode }

/-- The generated draft viewed as the dynamic document `validateCp`
reads (the draft object carries `waItems` whose WAs carry `ws` whose
steps carry a string `pc`). -/
def draftToCpD (d : CpDraft) : CpD :=
  { waItems := some (d.waItems.map draftWaToWaD)
    workActivities := none }

/-! Lexical clustering preview (POST /api/cluster/preview, src/server.js
lines 1061-1153): tokenize, pairwise Jaccard similarity, greedy seed
growth, minimum cluster size, unassigned complement. -/

/-- Activity card with the text synonym chain `getCardText` reads. -/
structure CardD where
  id : String
  activity : Option String := none
  activityTitle : Option String := none
  waTitle : Option String := none
  wa : Option String := none
  title : Option String := none
  text : Option String := none
  name : Option String := none
deriving DecidableEq

/-- The `getCardText` normalization (src/server.js lines 416-428). -/
def getCardText (c : CardD) : String :=
  jsTrim (jsOr [c.activity, c.activityTitle, c.waTitle, c.wa, c.title, c.text, c.name])

/-- The route's `tokenize`: lower-case, replace every character that is
not a letter, digit or whitespace by a space, split on whitespace, drop
empties.  (`\p{L}\p{N}` is modelled by `Char.isAlphanum`; the two agree
on the ASCII texts at issue.) -/
def tokenize (t : String) : List String :=
  (splitChars (fun c => c = ' ')
    ((jsToLower t).data.map fun c => if c.isAlphanum then c else ' ') []).filter
    (fun s => s != "")

/-- The route's `jaccard` on token lists: set intersection over union,
0 when the union is empty.  `mkRat inter union` is the exact quotient
`(inter : ℚ) / (union : ℚ)` (see `jaccard_eq_div` below), spelled so
that concrete runs reduce in the kernel. -/
def jaccard (a b : List String) : ℚ :=
  let A := a.dedup
  let B := b.dedup
  let inter := (A.filter (fun x => B.contains x)).length
  let union := A.length + B.length - inter
  if union = 0 then 0 else mkRat (inter : ℤ) union

/-- Tokenized item of the clustering run. -/
structure TItem where
  id : String
  text : String
  tok : List String
deriving DecidableEq

/-- Emitted cluster shape of the preview route. -/
structure ClusterOut where
  clusterId : String
  cardIds : List String
  sample : List String
deriving DecidableEq

/-- Inner loop of the greedy growth: walk the items after the seed, in
order, absorbing any unused item whose Jaccard similarity to the seed
meets the threshold; `used` (the JS `Set`) is a list of ids. -/
def pickGroup (seedTok : List String) (θ : ℚ) :
    List TItem → List String → List TItem × List String
  | [], used => ([], used)
  | t :: rest, used =>
    if t.id ∈ used then pickGroup seedTok θ rest used
    else if θ ≤ jaccard seedTok t.tok then
      let r := pickGroup seedTok θ rest (t.id :: used)
      (t :: r.1, r.2)
    else pickGroup seedTok θ rest used

/-- Outer loop of the greedy growth: each unused item seeds a group; a
group of size at least `m` is emitted as a cluster, otherwise its ids
are released back to the pool. -/
def runClusters (θ : ℚ) (m : ℕ) :
    List TItem → List String → List ClusterOut → List ClusterOut × List String
  | [], used, cls => (cls, used)
  | t :: rest, used, cls =>
    if t.id ∈ used then runClusters θ m rest used cls
    else
      let pg := pickGroup t.tok θ rest (t.id :: used)
      let group := t :: pg.1
      if m ≤ group.length then
        runClusters θ m rest pg.2
          (cls ++ [⟨"C" ++ toString (cls.length + 1), group.map (fun g => g.id),
                    (group.map fun g => g.text).take 5⟩])
      else
        runClusters θ m rest (pg.2.filter fun x => !(group.map fun g => g.id).contains x) cls

/-- The preview route's per-session computation: cards to non-empty
texts, tokenization, the greedy run, and the unassigned complement.
(The route's two early returns — no cards, no usable texts — produce
exactly what this uniform definition produces on those inputs.) -/
def previewCluster (cards : List CardD) (θ : ℚ) (m : ℕ) :
    List ClusterOut × List String :=
  let items := (cards.map fun c => (c.id, getCardText c)).filter fun x => x.2 != ""
  let tokens := items.map fun x => (⟨x.1, x.2, tokenize x.2⟩ : TItem)
  let r := runClusters θ m tokens [] []
  let assigned := r.1.flatMap fun c => c.cardIds
  let unassigned := (cards.map fun c => c.id).filter fun i => !assigned.contains i
  (r.1, unassigned)

/-- No member of the first cluster is a member of the second. -/
def ClusterDisjoint (c₁ c₂ : ClusterOut) : Prop :=
  ∀ x ∈ c₁.cardIds, x ∉ c₂.cardIds

/-- Invariant carried by the greedy clustering loop: every emitted
cluster has distinct members, at least `m` of them, all recorded in the
used set; and distinct emitted clusters share no member. -/
def ClustersOk (m : ℕ) (used : List String) (cls : List ClusterOut) : Prop :=
  (∀ c ∈ cls, c.cardIds.Nodup ∧ m ≤ c.cardIds.length ∧ ∀ x ∈ c.cardIds, x ∈ used) ∧
    cls.Pairwise ClusterDisjoint

/-! Reference-catalog index build (POST /api/myspike/index/build,
src/server.js lines 2393-2471).  The crawl of pages, CP lists and JD
links is network-bound and externalized: the input is the sequence of
fetched pages with their discovered CU records, in crawl order.  The
`meta` progress bookkeeping does not feed back into the loop and is
omitted. -/

/-- CU record as `fetchCuFromJd` returns it. -/
structure CuFetch where
  jdId : String := ""
  jdUrl : String := ""
  cuCode : String := ""
  cuTitle : String := ""
  cuDesc : String := ""
  programName : String := ""
  nossCode : String := ""
  source : String := "myspike"
deriving DecidableEq

/-- Index record as the build pushes it: the spread CU record plus the
CP-level fields and the `indexedAt` stamp. -/
structure IndexRec where
  cu : CuFetch
  cpId : String
  cpUrl : String
  nossCodeFromCpc : String
  nossTitleFromCpc : String
  indexedAt : String
deriving DecidableEq

/-- One CP page fetch: its id/url/NOSS fields and the CU record fetched
from each of its JD links. -/
structure CpFetch where
  cpId : String
  url : String
  nossCode : String
  nossTitle : String
  jdCus : List CuFetch
deriving DecidableEq

/-- One listing page fetch. -/
structure PageFetch where
  pageNo : ℕ
  cps : List CpFetch
deriving DecidableEq

/-- Innermost body of the build loop: skip a record with an empty title;
skip a record whose `cuCode` is already indexed; otherwise append and
count it. -/
def addCu (now : String) (cp : CpFetch) (st : List IndexRec × ℕ) (cu : CuFetch) :
    List IndexRec × ℕ :=
  if cu.cuTitle = "" then st
  else if st.1.any fun x => x.cu.cuCode == cu.cuCode then st
  else (st.1 ++ [⟨cu, cp.cpId, cp.url, cp.nossCode, cp.nossTitle, now⟩], st.2 + 1)

/-- Per-page build step: every CP of the page, every JD-fetched CU. -/
def buildPage (now : String) (st : List IndexRec × ℕ) (page : PageFetch) :
    List IndexRec × ℕ :=
  page.cps.foldl (fun s cp => cp.jdCus.foldl (addCu now cp) s) st

/-- The build increment over a fetched page range: threads the loaded
index and the `added` counter through every discovered record. -/
def buildIncrement (index : List IndexRec) (pages : List PageFetch) (now : String) :
    List IndexRec × ℕ :=
  pages.foldl (buildPage now) (index, 0)

/-! Cosine similarity and the S2 comparator (src/server.js lines
2505-2627), over exact real arithmetic. -/

/-- The `cosineSimilarity` function (lines 2505-2517): accumulate dot
product and squared norms over the common prefix of the two vectors,
return 0 when either accumulated norm is zero. -/
noncomputable def cosineSimilarity (a b : List ℝ) : ℝ :=
  let len := min a.length b.length
  let A := a.take len
  let B := b.take len
  let dot := (List.zipWith (fun x y => x * y) A B).sum
  let na := (A.map fun x => x * x).sum
  let nb := (B.map fun x => x * x).sum
  if na = 0 ∨ nb = 0 then 0 else dot / (Real.sqrt na * Real.sqrt nb)

/-- Confidence banding (lines 2518-2523). -/
noncomputable def confidenceLabel (score : ℝ) : String :=
  if (0.85 : ℝ) ≤ score then "HIGH"
  else if (0.78 : ℝ) ≤ score then "MEDIUM"
  else if (0.7 : ℝ) ≤ score then "LOW"
  else "NONE"

/-- The `Number(score.toFixed(4))` rounding to 4 decimal places. -/
noncomputable def round4 (x : ℝ) : ℝ :=
  ((round (x * 10000) : ℤ) : ℝ) / 10000

/-- Indexed catalog item with its embedding vector (the embedding
service is externalized: each item carries the vector the service
returned for its rendered text). -/
structure CatalogItem where
  cuCode : String
  cuTitle : String
  emb : List ℝ

/-- Scored candidate of the comparator. -/
structure ScoredItem where
  cuCode : String
  cuTitle : String
  score : ℝ

/-- The comparator's scoring map over the catalog. -/
noncomputable def scoredOf (v : List ℝ) (items : List CatalogItem) : List ScoredItem :=
  items.map fun it => ⟨it.cuCode, it.cuTitle, round4 (cosineSimilarity v it.emb)⟩

/-- The comparator's descending stable sort
(`scored.sort((a, b) => b.score - a.score)`). -/
noncomputable def sortedScored (v : List ℝ) (items : List CatalogItem) : List ScoredItem :=
  (scoredOf v items).mergeSort fun a b => decide (b.score ≤ a.score)

/-- Bounded `topK` (`Math.max(1, Math.min(10, topK))`; the `?? 3`
default is applied at extraction). -/
def topKEff (topK : ℕ) : ℕ := max 1 (min 10 topK)

/-- `bestScore`: the top candidate's score, 0 when there is none. -/
noncomputable def bestScoreOf (v : List ℝ) (items : List CatalogItem) (topK : ℕ) : ℝ :=
  match ((sortedScored v items).take (topKEff topK)).head? with
  | some c => c.score
  | none => 0

/-- The accept decision (`best >= thresholdAda ? "ADA" : "TIADA"`;
"ADA" is the code's MATCH decision, "TIADA" its NO_MATCH). -/
noncomputable def compareStatus (v : List ℝ) (items : List CatalogItem) (topK : ℕ)
    (thresholdAda : ℝ) : String :=
  if thresholdAda ≤ bestScoreOf v items topK then "ADA" else "TIADA"

/-! Concrete inputs used by the witnesses and counterexamples. -/

/-- The spec's clustering example: three cards in one session. -/
def cardsExample : List CardD :=
  [{ id := "a1", activity := some "Record attendance" },
   { id := "a2", activity := some "Log attendance sheet" },
   { id := "a3", activity := some "Prepare annual budget" }]

/-- Legacy-shaped document whose every PC record has an empty verb: per
the spec each of its nine work steps must draw a VOC_FAIL ERROR. -/
def vocFailDoc : CpD :=
  { workActivities := some (List.replicate 3
      { workSteps := some (List.replicate 3
          ({ pc := .obj "" "objek" "kualiti" "teks" } : StepD)) }) }

/-- A CU with three well-formed WAs. -/
def cuExample : CuRaw :=
  { wa := some
      [{ waCode := some "W01", waTitle := some "Urus rekod" },
       { waCode := some "W02", waTitle := some "Sedia laporan" },
       { waCode := some "W03", waTitle := some "Semak dokumen" }] }

/-- The draft generated for `cuExample` with the LLM unavailable, viewed
as a dynamic document. -/
def goodCp : CpD := draftToCpD (generateCpDraft "s1" cuExample {} (fun _ => none) "t0")

/-- A bucket holding one version of that passing document. -/
def bucketGood : Bucket := ⟨some "v1", [⟨"v1", goodCp⟩]⟩

/-- A minimal bucket whose single (latest) version is LOCKED. -/
def bucketLockedSimple : Bucket :=
  ⟨some "v1", [⟨"v1", { status := some "LOCKED" }⟩]⟩

/-- The bucket reached by locking `bucketGood`: version v1 (aliased to
the locked document) and the lock-appended version v2 (LOCKED). -/
def bucketAfterLock : Bucket := (lockCp bucketGood "s1" "c01" "PANEL" "t1").bucket

/-- A one-item catalog whose embedding equals the query vector. -/
def catItemW : CatalogItem := ⟨"c1", "t1", [1]⟩

/-- A plain edited body, as a client would PUT it after a lock. -/
def newBodyCp : CpD := { status := some "DRAFT" }

/-- A one-record index. -/
def indexExample : List IndexRec :=
  [⟨{ jdId := "7", jdUrl := "u7", cuCode := "CU-01", cuTitle := "Tajuk", cuDesc := "d" },
    "cp1", "url1", "N1", "NOSS Satu", "t0"⟩]

/-- A page range whose one discovered record carries a `cuCode` already
present in `indexExample`. -/
def pagesExample : List PageFetch :=
  [⟨1, [⟨"cp1", "url1", "N1", "NOSS Satu",
    [{ jdId := "9", jdUrl := "u9", cuCode := "CU-01", cuTitle := "Tajuk lain", cuDesc := "e" }]⟩]⟩]

/-! ### Validator: the passed flag against the ERROR count -/

theorem errCount_append (a b : List Issue) :
    errCount (a ++ b) = errCount a + errCount b := by
  simp [errCount, List.countP_append]

theorem stepCheck_err_iff (i j : ℕ) (s : StepD) :
    errCount (stepCheck i j s).1 = 0 ↔ (stepCheck i j s).2.1 = true := by
  unfold stepCheck
  dsimp only
  split
  · simp [errCount, missingPcIssue]
  · split <;> simp [errCount, pastTenseIssue]

theorem stepsCheck_err_iff (i : ℕ) (l : List StepD) : ∀ j : ℕ,
    errCount (stepsCheck i j l).1 = 0 ↔ (stepsCheck i j l).2.1 = true := by
  induction l with
  | nil => intro j; simp [stepsCheck, errCount]
  | cons s rest ih =>
    intro j
    have h1 := stepCheck_err_iff i j s
    have h2 := ih (j + 1)
    simp only [stepsCheck, errCount_append, Nat.add_eq_zero, Bool.and_eq_true]
    tauto

theorem waCheck_err_iff (i : ℕ) (wa : WaD) :
    errCount (waCheck i wa).1 = 0 ↔
      ((waCheck i wa).2.1 = true ∧ (waCheck i wa).2.2.1 = true) := by
  unfold waCheck
  have h := stepsCheck_err_iff i (wa.ws.getD (wa.workSteps.getD [])) 0
  dsimp only
  split
  · simp only [errCount_append, Nat.add_eq_zero]
    simp [errCount, minWsIssue, List.countP_cons]
  · simpa using h

theorem wasCheck_err_iff (l : List WaD) : ∀ i : ℕ,
    errCount (wasCheck i l).1 = 0 ↔
      ((wasCheck i l).2.1 = true ∧ (wasCheck i l).2.2.1 = true) := by
  induction l with
  | nil => intro i; simp [wasCheck, errCount]
  | cons wa rest ih =>
    intro i
    have h1 := waCheck_err_iff i wa
    have h2 := ih (i + 1)
    simp only [wasCheck, errCount_append, Nat.add_eq_zero, Bool.and_eq_true]
    tauto

/-- C2. For every CP document given to the validator, the returned
`ok` flag is true exactly when the returned issue list holds zero
ERROR-level issues; non-ERROR (WARN) issues never make the flag false. -/
theorem validateCp_ok_iff_no_errors (cp : CpD) :
    (validateCp cp).ok = true ↔ errCount (validateCp cp).issues = 0 := by
  have h := wasCheck_err_iff (cp.waItems.getD (cp.workActivities.getD [])) 0
  unfold validateCp
  dsimp only
  by_cases hlt : (cp.waItems.getD (cp.workActivities.getD [])).length < 3
  · rw [if_pos hlt]
    have h3 : ¬ (3 ≤ (cp.waItems.getD (cp.workActivities.getD [])).length) := by omega
    simp [errCount_append, errCount, minWaIssue, h3]
  · rw [if_neg hlt]
    have h3 : 3 ≤ (cp.waItems.getD (cp.workActivities.getD [])).length := by omega
    simp only [List.nil_append, Bool.and_eq_true, decide_eq_true_eq]
    constructor
    · rintro ⟨⟨_, hA⟩, hB⟩
      exact h.mpr ⟨hA, hB⟩
    · intro hh
      obtain ⟨hA, hB⟩ := h.mp hh
      exact ⟨⟨h3, hA⟩, hB⟩

/-- C3. The validator in force (src/server.js lines 1932-2024) never
emits a VOC_FAIL issue: on the nine-step legacy document whose every PC
record has an empty verb it reports zero VOC_FAIL issues (and even
passes), where the spec requires an ERROR-level VOC_FAIL per violating
work step.  The VOC check block sits orphaned after the function's
closing brace (lines 2026-2051). -/
theorem validateCp_no_voc_fail_on_empty_verb :
    (validateCp vocFailDoc).issues.countP (fun i => i.code == "VOC_FAIL") = 0 ∧
      (∃ wa ∈ vocFailDoc.workActivities.getD [], ∃ s ∈ wa.workSteps.getD [],
        s.pc.verbOf = "") ∧
      (validateCp vocFailDoc).ok = true := by
  refine ⟨by decide, ?_, by decide⟩
  refine ⟨{ workSteps := some (List.replicate 3 ({ pc := .obj "" "objek" "kualiti" "teks" } : StepD)) }, by decide, ?_⟩
  exact ⟨{ pc := .obj "" "objek" "kualiti" "teks" }, by decide, by decide⟩

/-! ### Lexical clustering -/

/-- Sanity: the `mkRat` spelling inside `jaccard` is the exact quotient
of intersection by union. -/
theorem jaccard_eq_div (a b : List String) :
    jaccard a b =
      (let A := a.dedup
       let B := b.dedup
       let inter := (A.filter fun x => B.contains x).length
       let union := A.length + B.length - inter
       if union = 0 then 0 else (inter : ℚ) / (union : ℚ)) := by
  unfold jaccard
  dsimp only
  split
  · rfl
  · rw [Rat.mkRat_eq_div]
    norm_num

/-- C4 (counterexample).  On the spec's three example cards with
`similarityThreshold = 0.3` and `minClusterSize = 2`, the run emits no
cluster at all and leaves all three cards unassigned — not one cluster
of the first two: the only positive Jaccard overlap is 1/4 < 3/10. -/
theorem previewCluster_spec_example_fails :
    previewCluster cardsExample (mkRat 3 10) 2 = ([], ["a1", "a2", "a3"]) ∧
      jaccard (tokenize "Record attendance") (tokenize "Log attendance sheet") = mkRat 1 4 := by
  decide

/-- C4 (amended).  With the threshold lowered to 0.25 (the actual
Jaccard overlap of the first two cards), the run emits exactly one
cluster containing the first two cards and leaves the third unassigned,
as the spec's example describes. -/
theorem previewCluster_example_at_quarter :
    previewCluster cardsExample (mkRat 1 4) 2 =
      ([⟨"C1", ["a1", "a2"], ["Record attendance", "Log attendance sheet"]⟩], ["a3"]) := by
  decide

theorem pickGroup_used_eq (seedTok : List String) (θ : ℚ) (rest : List TItem) :
    ∀ used : List String,
      (pickGroup seedTok θ rest used).2 =
        ((pickGroup seedTok θ rest used).1.map (fun t => t.id)).reverse ++ used := by
  induction rest with
  | nil => intro used; simp [pickGroup]
  | cons t rs ih =>
    intro used
    unfold pickGroup
    dsimp only
    split
    · exact ih used
    · split
      · have h := ih (t.id :: used)
        simp only [List.map_cons, List.reverse_cons, List.append_assoc, List.singleton_append]
        exact h
      · exact ih used

theorem pickGroup_fresh (seedTok : List String) (θ : ℚ) (rest : List TItem) :
    ∀ used : List String,
      ∀ t ∈ (pickGroup seedTok θ rest used).1, t.id ∉ used := by
  induction rest with
  | nil => intro used t ht; simp [pickGroup] at ht
  | cons s rs ih =>
    intro used t ht
    unfold pickGroup at ht
    dsimp only at ht
    split at ht
    · exact ih used t ht
    · rename_i hsid
      split at ht
      · rcases List.mem_cons.mp ht with h | h
        · subst h; exact hsid
        · intro hm
          exact ih (s.id :: used) t h (List.mem_cons_of_mem _ hm)
      · exact ih used t ht

theorem pickGroup_ids_nodup (seedTok : List String) (θ : ℚ) (rest : List TItem) :
    ∀ used : List String,
      ((pickGroup seedTok θ rest used).1.map (fun t => t.id)).Nodup := by
  induction rest with
  | nil => intro used; simp [pickGroup]
  | cons s rs ih =>
    intro used
    unfold pickGroup
    dsimp only
    split
    · exact ih used
    · split
      · simp only [List.map_cons, List.nodup_cons]
        refine ⟨?_, ih (s.id :: used)⟩
        intro hmem
        rcases List.mem_map.mp hmem with ⟨t, ht, hid⟩
        have := pickGroup_fresh seedTok θ rs (s.id :: used) t ht
        exact this (hid ▸ List.mem_cons_self _ _)
      · exact ih used

theorem runClusters_ok (θ : ℚ) (m : ℕ) (toks : List TItem) :
    ∀ (used : List String) (cls : List ClusterOut),
      ClustersOk m used cls →
      ClustersOk m (runClusters θ m toks used cls).2 (runClusters θ m toks used cls).1 := by
  induction toks with
  | nil => intro used cls h; simpa [runClusters] using h
  | cons t rs ih =>
    intro used cls h
    unfold runClusters
    dsimp only
    split
    · exact ih used cls h
    · rename_i htid
      have hue := pickGroup_used_eq t.tok θ rs (t.id :: used)
      have hfr := pickGroup_fresh t.tok θ rs (t.id :: used)
      have hnd := pickGroup_ids_nodup t.tok θ rs (t.id :: used)
      have husedsub : ∀ x, x ∈ used → x ∈ (pickGroup t.tok θ rs (t.id :: used)).2 := by
        intro x hx
        rw [hue]
        exact List.mem_append_right _ (List.mem_cons_of_mem _ hx)
      have hgrpsub : ∀ x, x ∈ t.id :: (pickGroup t.tok θ rs (t.id :: used)).1.map (fun g => g.id) →
          x ∈ (pickGroup t.tok θ rs (t.id :: used)).2 := by
        intro x hx
        rw [hue]
        rcases List.mem_cons.mp hx with h1 | h1
        · exact List.mem_append_right _ (h1 ▸ List.mem_cons_self _ _)
        · exact List.mem_append_left _ (List.mem_reverse.mpr h1)
      have hgrpfresh : ∀ x, x ∈ t.id :: (pickGroup t.tok θ rs (t.id :: used)).1.map (fun g => g.id) →
          x ∉ used := by
        intro x hx
        rcases List.mem_cons.mp hx with h1 | h1
        · exact h1 ▸ htid
        · rcases List.mem_map.mp h1 with ⟨g, hg, hid⟩
          intro hxu
          exact hfr g hg (hid ▸ List.mem_cons_of_mem _ hxu)
      split
      · rename_i hsize
        apply ih
        constructor
        · intro c hc
          rcases List.mem_append.mp hc with hOld | hNew
          · obtain ⟨hn, hs, hm⟩ := h.1 c hOld
            exact ⟨hn, hs, fun x hx => husedsub x (hm x hx)⟩
          · rw [List.mem_singleton] at hNew
            subst hNew
            refine ⟨?_, ?_, ?_⟩
            · simp only [List.map_cons, List.nodup_cons]
              refine ⟨?_, hnd⟩
              intro hmem
              rcases List.mem_map.mp hmem with ⟨g, hg, hid⟩
              exact hfr g hg (hid ▸ List.mem_cons_self _ _)
            · simpa using hsize
            · intro x hx
              exact hgrpsub x (by simpa using hx)
        · rw [List.pairwise_append]
          refine ⟨h.2, List.pairwise_singleton _ _, ?_⟩
          intro c₁ hc₁ c₂ hc₂ x hx
          rw [List.mem_singleton] at hc₂
          subst hc₂
          have hxu : x ∈ used := (h.1 c₁ hc₁).2.2 x hx
          intro hxnew
          exact hgrpfresh x (by simpa using hxnew) hxu
      · apply ih
        constructor
        · intro c hc
          obtain ⟨hn, hs, hm⟩ := h.1 c hc
          refine ⟨hn, hs, ?_⟩
          intro x hx
          have hxu : x ∈ used := hm x hx
          rw [List.mem_filter]
          refine ⟨husedsub x hxu, ?_⟩
          have hnotg : x ∉ (t :: (pickGroup t.tok θ rs (t.id :: used)).1).map (fun g => g.id) := by
            intro hxg
            exact hgrpfresh x (by simpa using hxg) hxu
          simpa using hnotg
        · exact h.2

theorem countP_contains_of_pairwise (cls : List ClusterOut) (x : String)
    (hp : cls.Pairwise ClusterDisjoint) (c₀ : ClusterOut) (hc₀ : c₀ ∈ cls)
    (hid : x ∈ c₀.cardIds) :
    cls.countP (fun c => c.cardIds.contains x) = 1 := by
  induction cls with
  | nil => cases hc₀
  | cons a rest ih =>
    rw [List.pairwise_cons] at hp
    rcases List.mem_cons.mp hc₀ with h | h
    · have hxa : x ∈ a.cardIds := h ▸ hid
      have hz : rest.countP (fun c => c.cardIds.contains x) = 0 := by
        rw [List.countP_eq_zero]
        intro c hc
        have := hp.1 c hc x hxa
        simpa using this
      have hpa : a.cardIds.contains x = true := by simpa using hxa
      simp only [List.countP_cons, hz, hpa]
      simp
    · have hxa : x ∉ a.cardIds := fun hin => hp.1 c₀ h x hin hid
      have hpa : a.cardIds.contains x = false := by simpa using hxa
      simp only [List.countP_cons, hpa, ih hp.2 h]
      simp

/-- C5. For every input card list, similarity threshold and minimum
cluster size, one lexical run emits pairwise-disjoint clusters, each
with at least `minClusterSize` members, and every input card id lies in
exactly one emitted cluster or else in the unassigned list. -/
theorem previewCluster_partition (cards : List CardD) (θ : ℚ) (m : ℕ) :
    ((previewCluster cards θ m).1.Pairwise ClusterDisjoint) ∧
      (∀ c ∈ (previewCluster cards θ m).1, m ≤ c.cardIds.length) ∧
      (∀ card ∈ cards,
        ((previewCluster cards θ m).1.countP (fun c => c.cardIds.contains card.id) = 1 ∧
          card.id ∉ (previewCluster cards θ m).2) ∨
        ((previewCluster cards θ m).1.countP (fun c => c.cardIds.contains card.id) = 0 ∧
          card.id ∈ (previewCluster cards θ m).2)) := by
  unfold previewCluster
  dsimp only
  set toks := ((cards.map fun c => (c.id, getCardText c)).filter fun x => x.2 != "").map
    (fun x => (⟨x.1, x.2, tokenize x.2⟩ : TItem)) with htoks
  have hok := runClusters_ok θ m toks [] []
    ⟨fun c hc => absurd hc (List.not_mem_nil c), List.Pairwise.nil⟩
  refine ⟨hok.2, fun c hc => (hok.1 c hc).2.1, ?_⟩
  intro card hcard
  by_cases hmem : ∃ c ∈ (runClusters θ m toks [] []).1, card.id ∈ c.cardIds
  · obtain ⟨c₀, hc₀, hid⟩ := hmem
    left
    refine ⟨countP_contains_of_pairwise _ _ hok.2 c₀ hc₀ hid, ?_⟩
    intro hin
    rw [List.mem_filter] at hin
    have hmemflat : card.id ∈ (runClusters θ m toks [] []).1.flatMap fun c => c.cardIds :=
      List.mem_flatMap.mpr ⟨c₀, hc₀, hid⟩
    have hcontains :
        ((runClusters θ m toks [] []).1.flatMap fun c => c.cardIds).contains card.id = true := by
      simpa using hmemflat
    rw [hcontains] at hin
    exact absurd hin.2 (by simp)
  · right
    push_neg at hmem
    constructor
    · rw [List.countP_eq_zero]
      intro c hc
      have := hmem c hc
      simpa using this
    · rw [List.mem_filter]
      refine ⟨List.mem_map.mpr ⟨card, hcard, rfl⟩, ?_⟩
      have hnot : card.id ∉ (runClusters θ m toks [] []).1.flatMap fun c => c.cardIds := by
        intro hin
        obtain ⟨c, hc, hid⟩ := List.mem_flatMap.mp hin
        exact hmem c hc hid
      simpa using hnot

/-! ### Reference-catalog build idempotence -/

theorem foldl_fixed {α β : Type} (f : α → β → α) (l : List β) (st : α)
    (h : ∀ b ∈ l, f st b = st) : l.foldl f st = st := by
  induction l with
  | nil => rfl
  | cons b bs ih =>
    rw [List.foldl_cons, h b (List.mem_cons_self b bs)]
    exact ih (fun x hx => h x (List.mem_cons_of_mem b hx))

theorem addCu_of_mem (now : String) (cp : CpFetch) (st : List IndexRec × ℕ) (cu : CuFetch)
    (h : cu.cuCode ∈ st.1.map (fun r => r.cu.cuCode)) : addCu now cp st cu = st := by
  unfold addCu
  split
  · rfl
  · have hany : st.1.any (fun x => x.cu.cuCode == cu.cuCode) = true := by
      rw [List.any_eq_true]
      obtain ⟨r, hr, he⟩ := List.mem_map.mp h
      exact ⟨r, hr, by simp [he]⟩
    rw [if_pos hany]

/-- C9.  Re-running the index build over a page range whose discovered
records' cuCodes are all already present in the loaded index adds zero
records and leaves the index unchanged (each record is checked against
the index by `cuCode` before appending; duplicates are skipped). -/
theorem buildIncrement_idempotent (index : List IndexRec) (pages : List PageFetch) (now : String)
    (h : ∀ page ∈ pages, ∀ cp ∈ page.cps, ∀ cu ∈ cp.jdCus,
      cu.cuCode ∈ index.map (fun r => r.cu.cuCode)) :
    buildIncrement index pages now = (index, 0) := by
  unfold buildIncrement
  apply foldl_fixed
  intro page hpage
  unfold buildPage
  apply foldl_fixed
  intro cp hcp
  apply foldl_fixed
  intro cu hcu
  exact addCu_of_mem now cp (index, 0) cu (h page hpage cp hcp cu hcu)

/-- C9 witness: on a concrete one-record index and a page range that
rediscovers the same `cuCode`, the build adds zero records. -/
theorem buildIncrement_idempotent_witness :
    (∀ page ∈ pagesExample, ∀ cp ∈ page.cps, ∀ cu ∈ cp.jdCus,
      cu.cuCode ∈ indexExample.map (fun r => r.cu.cuCode)) ∧
      buildIncrement indexExample pagesExample "t1" = (indexExample, 0) :=
  ⟨by decide, buildIncrement_idempotent indexExample pagesExample "t1" (by decide)⟩

/-! ### Drafts generated for well-formed CUs pass the minimum rules -/

theorem jsTrim_eq_empty_iff (s : String) :
    jsTrim s = "" ↔ ∀ c ∈ s.data, c.isWhitespace = true := by
  unfold jsTrim
  constructor
  · intro h c hc
    have hl : ((s.data.dropWhile Char.isWhitespace).reverse.dropWhile
        Char.isWhitespace).reverse = [] := by
      simpa using congrArg String.data h
    rw [List.reverse_eq_nil_iff, List.dropWhile_eq_nil_iff] at hl
    have hsplit := List.takeWhile_append_dropWhile Char.isWhitespace s.data
    rw [← hsplit] at hc
    rcases List.mem_append.mp hc with h1 | h1
    · exact List.mem_takeWhile_imp h1
    · exact hl c (List.mem_reverse.mpr h1)
  · intro h
    have h1 : s.data.dropWhile Char.isWhitespace = [] :=
      List.dropWhile_eq_nil_iff.mpr (fun x hx => h x hx)
    simp [h1]

theorem toLower_t_not_ws (c : Char) (h : c.toLower = 't') : c.isWhitespace = false := by
  by_contra hws
  have hws2 : c.isWhitespace = true := by simpa using hws
  have hcases : ((c = ' ' ∨ c = '\t') ∨ c = '\x0d') ∨ c = '\n' := by
    simpa [Char.isWhitespace] using hws2
  rcases hcases with ((h1 | h1) | h1) | h1 <;> subst h1 <;> exact absurd h (by decide)

theorem jsTrim_ne_empty_of_mem (s : String) (c : Char) (hc : c ∈ s.data)
    (hw : c.isWhitespace = false) : jsTrim s ≠ "" := by
  intro h
  have := (jsTrim_eq_empty_iff s).mp h c hc
  rw [hw] at this
  exact absurd this (by decide)

theorem startsTelah_head (s : String) (h : startsTelah s = true) :
    ∃ c, c ∈ s.data ∧ c.toLower = 't' := by
  unfold startsTelah at h
  dsimp only at h
  rw [Bool.and_eq_true] at h
  have h1 := of_decide_eq_true h.1
  rcases hd : s.data with _ | ⟨c, rest⟩
  · rw [hd] at h1
    exact absurd h1 (by decide)
  · rw [hd] at h1
    have htake : (c :: rest).take 5 = c :: rest.take 4 := rfl
    rw [htake, List.map_cons] at h1
    refine ⟨c, hd ▸ List.mem_cons_self c rest, ?_⟩
    injection h1 with hhead htail

theorem mkDraftWs_pc_ok (waIndex1 j : ℕ) (row : WsRow) :
    (mkDraftWs waIndex1 j row).pc ≠ "" ∧ jsTrim (mkDraftWs waIndex1 j row).pc ≠ "" := by
  unfold mkDraftWs
  dsimp only
  by_cases h0 : jsTrim row.pc = ""
  · simp only [h0, if_pos rfl]
    exact ⟨by decide, by decide⟩
  · rw [if_neg h0]
    by_cases ht : startsTelah (jsTrim row.pc) = true
    · rw [if_pos ht, if_neg h0]
      refine ⟨h0, ?_⟩
      obtain ⟨c, hc, hct⟩ := startsTelah_head _ ht
      exact jsTrim_ne_empty_of_mem _ c hc (toLower_t_not_ws c hct)
    · rw [if_neg ht]
      have hdata : ("Telah " ++ jsTrimLeft (jsTrim row.pc)).data
          = 'T' :: ("elah " ++ jsTrimLeft (jsTrim row.pc)).data := rfl
      have hne : ("Telah " ++ jsTrimLeft (jsTrim row.pc)) ≠ "" := by
        intro hemp
        have := congrArg String.data hemp
        rw [hdata] at this
        simp at this
      rw [if_neg hne]
      refine ⟨hne, ?_⟩
      refine jsTrim_ne_empty_of_mem _ 'T' ?_ (by decide)
      rw [hdata]
      exact List.mem_cons_self _ _

theorem fallbackWsPc_length (t : String) (k : ℕ) :
    (fallbackWsPc t k).length = min (max 3 k) 4 := by
  unfold fallbackWsPc
  dsimp only
  rw [List.length_take]
  rfl

theorem wsRowsFor_length (llm : ℕ → Option (List WsRowRaw)) (i : ℕ) (t : String)
    (wsMin : ℕ) (h : 3 ≤ wsMin) : 3 ≤ (wsRowsFor llm i t wsMin).length := by
  unfold wsRowsFor
  cases hllm : llm i with
  | none => rw [fallbackWsPc_length]; omega
  | some parsed =>
    dsimp only
    split
    · rw [fallbackWsPc_length]; omega
    · split
      · rw [List.length_take, List.length_append, fallbackWsPc_length]
        omega
      · rename_i hge
        omega

theorem draftSteps_length (w : ℕ) (rows : List WsRow) :
    ∀ j, (draftSteps w j rows).length = rows.length := by
  induction rows with
  | nil => intro j; rfl
  | cons r rs ih => intro j; simp [draftSteps, ih]

theorem mem_draftSteps (w : ℕ) (rows : List WsRow) :
    ∀ j s, s ∈ draftSteps w j rows → ∃ j2 row, row ∈ rows ∧ s = mkDraftWs w j2 row := by
  induction rows with
  | nil => intro j s hs; cases hs
  | cons r rs ih =>
    intro j s hs
    rcases List.mem_cons.mp hs with h | h
    · exact ⟨j, r, List.mem_cons_self r rs, h⟩
    · obtain ⟨j2, row, hrow, he⟩ := ih (j + 1) s h
      exact ⟨j2, row, List.mem_cons_of_mem r hrow, he⟩

theorem draftWas_length (llm : ℕ → Option (List WsRowRaw)) (wsMin : ℕ) (was : List WaLocked) :
    ∀ i, (draftWas llm wsMin i was).length = was.length := by
  induction was with
  | nil => intro i; rfl
  | cons w ws ih => intro i; simp [draftWas, ih]

theorem mem_draftWas (llm : ℕ → Option (List WsRowRaw)) (wsMin : ℕ) (was : List WaLocked) :
    ∀ i wa, wa ∈ draftWas llm wsMin i was →
      ∃ i2 w, w ∈ was ∧
        wa = ⟨w.waCode, w.waTitle,
          draftSteps (i2 + 1) 0 ((wsRowsFor llm i2 w.waTitle wsMin).take wsMin)⟩ := by
  induction was with
  | nil => intro i wa hwa; cases hwa
  | cons w ws ih =>
    intro i wa hwa
    rcases List.mem_cons.mp hwa with h | h
    · exact ⟨i, w, List.mem_cons_self w ws, h⟩
    · obtain ⟨i2, w2, hw2, he⟩ := ih (i + 1) wa h
      exact ⟨i2, w2, List.mem_cons_of_mem w hw2, he⟩

theorem draftWa_ws_ok (llm : ℕ → Option (List WsRowRaw)) (wsMin : ℕ) (h3 : 3 ≤ wsMin)
    (was : List WaLocked) (i : ℕ) (wa : DraftWa) (hwa : wa ∈ draftWas llm wsMin i was) :
    3 ≤ wa.ws.length ∧ ∀ s ∈ wa.ws, s.pc ≠ "" ∧ jsTrim s.pc ≠ "" := by
  obtain ⟨i2, w, _, rfl⟩ := mem_draftWas llm wsMin was i wa hwa
  constructor
  · rw [draftSteps_length, List.length_take]
    have := wsRowsFor_length llm i2 w.waTitle wsMin h3
    omega
  · intro s hs
    obtain ⟨j2, row, _, rfl⟩ := mem_draftSteps _ _ 0 s hs
    exact mkDraftWs_pc_ok _ j2 row

theorem stepCheck_min_zero (i j : ℕ) (s : StepD) (h : pcStringOf s ≠ "") :
    (stepCheck i j s).1.countP
      (fun x => x.code == "MIN_WA" || x.code == "MIN_WS" || x.code == "MISSING_PC") = 0 := by
  unfold stepCheck
  dsimp only
  rw [if_neg h]
  split
  · simp [pastTenseIssue]
  · rfl

theorem stepsCheck_min_zero (i : ℕ) (l : List StepD) (h : ∀ s ∈ l, pcStringOf s ≠ "") :
    ∀ j, (stepsCheck i j l).1.countP
      (fun x => x.code == "MIN_WA" || x.code == "MIN_WS" || x.code == "MISSING_PC") = 0 := by
  induction l with
  | nil => intro j; rfl
  | cons s rest ih =>
    intro j
    rw [stepsCheck]
    dsimp only
    rw [List.countP_append, stepCheck_min_zero i j s (h s (List.mem_cons_self s rest)),
      ih (fun x hx => h x (List.mem_cons_of_mem s hx)) (j + 1)]

theorem waCheck_min_zero (i : ℕ) (wa : WaD)
    (hlen : 3 ≤ (wa.ws.getD (wa.workSteps.getD [])).length)
    (hsteps : ∀ s ∈ wa.ws.getD (wa.workSteps.getD []), pcStringOf s ≠ "") :
    (waCheck i wa).1.countP
      (fun x => x.code == "MIN_WA" || x.code == "MIN_WS" || x.code == "MISSING_PC") = 0 := by
  unfold waCheck
  dsimp only
  rw [if_neg (by omega)]
  rw [List.nil_append]
  exact stepsCheck_min_zero i _ hsteps 0

theorem wasCheck_min_zero (l : List WaD)
    (h : ∀ wa ∈ l, 3 ≤ (wa.ws.getD (wa.workSteps.getD [])).length ∧
      ∀ s ∈ wa.ws.getD (wa.workSteps.getD []), pcStringOf s ≠ "") :
    ∀ i, (wasCheck i l).1.countP
      (fun x => x.code == "MIN_WA" || x.code == "MIN_WS" || x.code == "MISSING_PC") = 0 := by
  induction l with
  | nil => intro i; rfl
  | cons wa rest ih =>
    intro i
    rw [wasCheck]
    dsimp only
    rw [List.countP_append,
      waCheck_min_zero i wa (h wa (List.mem_cons_self wa rest)).1
        (h wa (List.mem_cons_self wa rest)).2,
      ih (fun x hx => h x (List.mem_cons_of_mem wa hx)) (i + 1)]

theorem waItemsLockedOf_length (cu : CuRaw)
    (hfields : ∀ w ∈ cu.wa.getD (cu.was.getD []),
      jsToLower (jsTrim (jsOr [w.waCode, w.waId, w.id, w.code])) ≠ "" ∧
        jsTrim (jsOr [w.waTitle, w.title, w.name]) ≠ "") :
    (waItemsLockedOf cu).length = (cu.wa.getD (cu.was.getD [])).length := by
  unfold waItemsLockedOf
  rw [List.filter_eq_self.mpr, List.length_map]
  intro a ha
  obtain ⟨w, hw, rfl⟩ := List.mem_map.mp ha
  have hf := hfields w hw
  simp [bne_iff_ne, hf.1, hf.2]

/-- C7.  For every CU with at least 3 WAs, each carrying a non-empty
(normalized) code and title, the generated draft has at least 3 work
steps per WA, each with non-empty PC text, and the validator reports no
MIN_WA, MIN_WS or MISSING_PC issue on it — for every LLM-oracle
response. -/
theorem generateDraft_no_min_errors (sessionId : String) (cu : CuRaw) (ai : AiOpts)
    (llm : ℕ → Option (List WsRowRaw)) (nowIso : String)
    (hlen : 3 ≤ (cu.wa.getD (cu.was.getD [])).length)
    (hfields : ∀ w ∈ cu.wa.getD (cu.was.getD []),
      jsToLower (jsTrim (jsOr [w.waCode, w.waId, w.id, w.code])) ≠ "" ∧
        jsTrim (jsOr [w.waTitle, w.title, w.name]) ≠ "") :
    (∀ wa ∈ (generateCpDraft sessionId cu ai llm nowIso).waItems,
        3 ≤ wa.ws.length ∧ ∀ s ∈ wa.ws, s.pc ≠ "") ∧
      (validateCp (draftToCpD (generateCpDraft sessionId cu ai llm nowIso))).issues.countP
        (fun x => x.code == "MIN_WA" || x.code == "MIN_WS" || x.code == "MISSING_PC") = 0 := by
  have hwsMin : 3 ≤ max 3 (match ai.wsMin with | some n => if n = 0 then 3 else n | none => 3) :=
    le_max_left _ _
  have hwaItems :
      (generateCpDraft sessionId cu ai llm nowIso).waItems
        = draftWas llm
            (max 3 (match ai.wsMin with | some n => if n = 0 then 3 else n | none => 3)) 0
            (waItemsLockedOf cu) := rfl
  have hdraft := fun wa hwa => draftWa_ws_ok llm _ hwsMin (waItemsLockedOf cu) 0 wa
    (hwaItems ▸ hwa)
  constructor
  · intro wa hwa
    obtain ⟨hl, hs⟩ := hdraft wa hwa
    exact ⟨hl, fun s hs2 => (hs s hs2).1⟩
  · unfold validateCp
    dsimp only
    have hcount : (draftToCpD (generateCpDraft sessionId cu ai llm nowIso)).waItems.getD
        ((draftToCpD (generateCpDraft sessionId cu ai llm nowIso)).workActivities.getD [])
        = (generateCpDraft sessionId cu ai llm nowIso).waItems.map draftWaToWaD := rfl
    rw [hcount]
    have hlen2 : ((generateCpDraft sessionId cu ai llm nowIso).waItems.map
        draftWaToWaD).length = (cu.wa.getD (cu.was.getD [])).length := by
      rw [List.length_map, hwaItems, draftWas_length, waItemsLockedOf_length cu hfields]
    rw [if_neg (by omega)]
    rw [List.nil_append]
    apply wasCheck_min_zero
    intro wa2 hwa2
    obtain ⟨wa, hwa, rfl⟩ := List.mem_map.mp hwa2
    obtain ⟨hl, hs⟩ := hdraft wa hwa
    have hws : (draftWaToWaD wa).ws.getD ((draftWaToWaD wa).workSteps.getD [])
        = wa.ws.map draftStepToStepD := rfl
    rw [hws]
    constructor
    · simpa using hl
    · intro s2 hs2
      obtain ⟨s, hsmem, rfl⟩ := List.mem_map.mp hs2
      have hpc := hs s hsmem
      unfold pcStringOf draftStepToStepD
      dsimp only
      rw [if_neg hpc.1]
      exact hpc.2

/-- C7 witness: on a concrete CU with three well-formed WAs and the LLM
unavailable, the generated draft carries three steps with non-empty PCs
per WA and validates with no MIN_WA, MIN_WS or MISSING_PC issue. -/
theorem generateDraft_no_min_errors_witness :
    (3 ≤ (cuExample.wa.getD (cuExample.was.getD [])).length) ∧
      ((∀ wa ∈ (generateCpDraft "s1" cuExample {} (fun _ => none) "t0").waItems,
          3 ≤ wa.ws.length ∧ ∀ s ∈ wa.ws, s.pc ≠ "") ∧
        (validateCp (draftToCpD (generateCpDraft "s1" cuExample {} (fun _ => none) "t0"))).issues.countP
          (fun x => x.code == "MIN_WA" || x.code == "MIN_WS" || x.code == "MISSING_PC") = 0) :=
  ⟨by decide,
    generateDraft_no_min_errors "s1" cuExample {} (fun _ => none) "t0" (by decide) (by decide)⟩

/-! ### Version store: lock appends, save overwrites -/

theorem updateLastCp_map_version (vs : List VEntry) (cp : CpD) :
    (updateLastCp vs cp).map (fun e => e.version) = vs.map (fun e => e.version) := by
  cases hvs : vs.getLast? with
  | none => unfold updateLastCp; rw [hvs]
  | some e =>
    unfold updateLastCp
    rw [hvs]
    have hne : vs ≠ [] := by
      intro h; rw [h] at hvs; exact absurd hvs (by simp)
    conv_rhs => rw [← List.dropLast_append_getLast hne]
    have hge : vs.getLast hne = e := by
      have := List.getLast?_eq_getLast vs hne
      rw [hvs] at this
      exact (Option.some.injEq _ _ ▸ this).symm
    rw [hge]
    simp

theorem updateLastCp_ne_nil (vs : List VEntry) (cp : CpD) (e : VEntry)
    (hvs : vs.getLast? = some e) : updateLastCp vs cp ≠ [] := by
  unfold updateLastCp
  rw [hvs]
  simp

theorem updateLastCp_getLast? (vs : List VEntry) (cp : CpD) (e : VEntry)
    (hvs : vs.getLast? = some e) :
    (updateLastCp vs cp).getLast? = some ⟨e.version, cp⟩ := by
  unfold updateLastCp
  rw [hvs]
  exact List.getLast?_concat _

theorem lastVersionLabel_updateLastCp (vs : List VEntry) (cp : CpD) (e : VEntry)
    (hvs : vs.getLast? = some e) :
    lastVersionLabel (updateLastCp vs cp) = lastVersionLabel vs := by
  unfold lastVersionLabel
  rw [hvs, updateLastCp_getLast? vs cp e hvs]

theorem findIdx?_none_of (p : VEntry → Bool) (l : List VEntry)
    (h : ∀ x ∈ l, p x = false) : l.findIdx? p = none :=
  List.findIdx?_eq_none_iff.mpr h

theorem saveCpVersion_bump_append (lv : Option String) (vs : List VEntry) (cp : CpD)
    (hne : vs ≠ [])
    (hfresh : mkVer (parseVerNum (lastVersionLabel vs) + 1)
      ∉ vs.map (fun e => e.version)) :
    saveCpVersion ⟨lv, vs⟩ cp true
      = (⟨some (mkVer (parseVerNum (lastVersionLabel vs) + 1)),
          vs ++ [⟨mkVer (parseVerNum (lastVersionLabel vs) + 1), cp⟩]⟩,
         mkVer (parseVerNum (lastVersionLabel vs) + 1)) := by
  unfold saveCpVersion nextVersionLabel
  dsimp only
  rw [if_neg (by simpa [List.isEmpty_iff] using hne)]
  rw [if_pos rfl]
  rw [findIdx?_none_of _ _ ?hall]
  case hall =>
    intro x hx
    have : x.version ≠ mkVer (parseVerNum (lastVersionLabel vs) + 1) := by
      intro hx2
      exact hfresh (hx2 ▸ List.mem_map_of_mem (fun e => e.version) hx)
    simpa using this

theorem set_last_eq (vs : List VEntry) (x : VEntry) (h : vs ≠ []) :
    vs.set (vs.length - 1) x = vs.dropLast ++ [x] := by
  induction vs with
  | nil => exact absurd rfl h
  | cons a rest ih =>
    cases rest with
    | nil => rfl
    | cons b t =>
      have hr : (b :: t) ≠ [] := by simp
      have hlen : (a :: b :: t).length - 1 = (b :: t).length - 1 + 1 := by
        simp
      rw [hlen, List.set_cons_succ, ih hr]
      rfl

theorem findIdx?_last_of_nodup_aux (e : VEntry) (vs : List VEntry) :
    vs.getLast? = some e → (vs.map (fun x => x.version)).Nodup →
      ∀ i, List.findIdx? (fun x => x.version == e.version) vs i = some (i + vs.length - 1) := by
  induction vs with
  | nil => intro hlast; exact absurd hlast (by simp)
  | cons a rest ih =>
    intro hlast hnd i
    cases rest with
    | nil =>
      have hae : a = e := by simpa using hlast
      subst hae
      rw [List.findIdx?_cons]
      simp
    | cons b t =>
      have hlast2 : (b :: t).getLast? = some e := List.getLast?_cons_cons ▸ hlast
      rw [List.map_cons, List.nodup_cons] at hnd
      have hmem : e ∈ b :: t := List.mem_of_getLast?_eq_some hlast2
      have hne : a.version ≠ e.version := by
        intro hav
        exact hnd.1 (hav ▸ List.mem_map_of_mem (fun x => x.version) hmem)
      rw [List.findIdx?_cons]
      have hfa : (a.version == e.version) = false := by simpa using hne
      rw [hfa]
      rw [if_neg (by simp)]
      rw [ih hlast2 hnd.2 (i + 1)]
      congr 1
      simp
      omega

theorem findIdx?_last_of_nodup (vs : List VEntry) (e : VEntry)
    (hlast : vs.getLast? = some e)
    (hnd : (vs.map (fun x => x.version)).Nodup) :
    vs.findIdx? (fun x => x.version == e.version) = some (vs.length - 1) := by
  have := findIdx?_last_of_nodup_aux e vs hlast hnd 0
  simpa using this

theorem saveCpVersion_overwrite_last (b : Bucket) (cp : CpD) (e : VEntry)
    (hlast : b.versions.getLast? = some e) (hne0 : e.version ≠ "")
    (hnd : (b.versions.map (fun x => x.version)).Nodup) :
    saveCpVersion b cp false
      = (⟨some e.version, b.versions.dropLast ++ [⟨e.version, cp⟩]⟩, e.version) := by
  have hne : b.versions ≠ [] := by
    intro h; rw [h] at hlast; exact absurd hlast (by simp)
  have hlab : lastVersionLabel b.versions = e.version := by
    unfold lastVersionLabel
    rw [hlast]
    dsimp only
    rw [if_neg hne0]
  unfold saveCpVersion nextVersionLabel
  rw [if_neg (by simpa [List.isEmpty_iff] using hne)]
  dsimp only
  rw [if_neg (by simp)]
  rw [hlab, findIdx?_last_of_nodup b.versions e hlast hnd]
  dsimp only
  rw [set_last_eq b.versions _ hne]

/-- C1.  With at least one stored version for the addressed
(sessionId, cuId) pair and a well-formed store (the bumped label is not
already taken), the lock endpoint succeeds precisely when validating the
latest version's document yields zero ERROR-level issues; on failure it
reports that issue list; on success it appends exactly one new version
entry, whose document has status LOCKED. -/
theorem lockCp_spec (b : Bucket) (sessionId cuId lockedBy now : String) (e : VEntry)
    (hsid : sessionId ≠ "") (hcu : cuId ≠ "")
    (hlast : b.versions.getLast? = some e)
    (hfresh : mkVer (parseVerNum (lastVersionLabel b.versions) + 1)
      ∉ b.versions.map (fun x => x.version)) :
    ((lockCp b sessionId cuId lockedBy now).status = .locked ↔
        errCount (validateCp e.cp).issues = 0) ∧
      (errCount (validateCp e.cp).issues ≠ 0 →
        (lockCp b sessionId cuId lockedBy now).status = .rejected ∧
          (lockCp b sessionId cuId lockedBy now).issues = (validateCp e.cp).issues) ∧
      (errCount (validateCp e.cp).issues = 0 →
        (lockCp b sessionId cuId lockedBy now).bucket.versions.map (fun x => x.version)
            = b.versions.map (fun x => x.version)
              ++ [mkVer (parseVerNum (lastVersionLabel b.versions) + 1)] ∧
          ∃ e2, (lockCp b sessionId cuId lockedBy now).bucket.versions.getLast? = some e2 ∧
            e2.cp.status = some "LOCKED" ∧
            e2.version = mkVer (parseVerNum (lastVersionLabel b.versions) + 1)) := by
  have hany : ∀ issues : List Issue,
      (issues.any fun x => x.level == "ERROR") = false ↔ errCount issues = 0 := by
    intro issues
    rw [← Bool.not_eq_true, List.any_eq_true, errCount, List.countP_eq_zero]
    simp
  unfold lockCp
  rw [if_neg (by simp [hsid, hcu])]
  rw [hlast]
  dsimp only
  by_cases herr : errCount (validateCp e.cp).issues = 0
  · rw [if_neg (by rw [Bool.not_eq_true, hany]; exact herr)]
    have hb1ne : ∀ cp, updateLastCp b.versions cp ≠ [] :=
      fun cp => updateLastCp_ne_nil b.versions cp e hlast
    have hb1lab : ∀ cp, lastVersionLabel (updateLastCp b.versions cp)
        = lastVersionLabel b.versions :=
      fun cp => lastVersionLabel_updateLastCp b.versions cp e hlast
    have hb1fresh : ∀ cp, mkVer (parseVerNum (lastVersionLabel
        (updateLastCp b.versions cp)) + 1)
        ∉ (updateLastCp b.versions cp).map (fun x => x.version) := by
      intro cp
      rw [hb1lab cp, updateLastCp_map_version]
      exact hfresh
    rw [saveCpVersion_bump_append b.latestVersion _ _ (hb1ne _) (hb1fresh _)]
    dsimp only
    refine ⟨by simp [herr], fun hc => absurd herr hc, fun _ => ⟨?_, ?_⟩⟩
    · rw [List.map_append, updateLastCp_map_version, hb1lab]
      rfl
    · refine ⟨_, List.getLast?_concat _, rfl, by rw [hb1lab]⟩
  · have hpos : ((validateCp e.cp).issues.any fun x => x.level == "ERROR") = true := by
      cases hb : (validateCp e.cp).issues.any fun x => x.level == "ERROR" with
      | true => rfl
      | false => exact absurd ((hany _).mp hb) herr
    rw [if_pos hpos]
    dsimp only
    exact ⟨by simp [herr], fun _ => ⟨rfl, rfl⟩, fun hc => absurd hc herr⟩

/-- C1 witness: a concrete one-version bucket holding a document that
validates cleanly locks successfully and appends version v2 with status
LOCKED. -/
theorem lockCp_spec_witness :
    ("s1" : String) ≠ "" ∧
      (bucketGood.versions.getLast? = some ⟨"v1", goodCp⟩) ∧
      (((lockCp bucketGood "s1" "c01" "PANEL" "t1").status = .locked ↔
          errCount (validateCp goodCp).issues = 0) ∧
        (errCount (validateCp goodCp).issues ≠ 0 →
          (lockCp bucketGood "s1" "c01" "PANEL" "t1").status = .rejected ∧
            (lockCp bucketGood "s1" "c01" "PANEL" "t1").issues = (validateCp goodCp).issues) ∧
        (errCount (validateCp goodCp).issues = 0 →
          (lockCp bucketGood "s1" "c01" "PANEL" "t1").bucket.versions.map (fun x => x.version)
              = bucketGood.versions.map (fun x => x.version)
                ++ [mkVer (parseVerNum (lastVersionLabel bucketGood.versions) + 1)] ∧
            ∃ e2, (lockCp bucketGood "s1" "c01" "PANEL" "t1").bucket.versions.getLast?
                = some e2 ∧
              e2.cp.status = some "LOCKED" ∧
              e2.version = mkVer (parseVerNum (lastVersionLabel bucketGood.versions) + 1))) :=
  ⟨by decide, by decide,
    lockCp_spec bucketGood "s1" "c01" "PANEL" "t1" ⟨"v1", goodCp⟩
      (by decide) (by decide) (by decide) (by decide)⟩

/-- C6 (counterexample).  In the store state reached by locking a clean
draft, the latest version (v2) has status LOCKED, yet the save-working
endpoint overwrites exactly that version in place with the incoming
body and creates no new version entry. -/
theorem saveCp_overwrites_locked_version :
    ((bucketAfterLock.versions.getLast?).map fun e => (e.version, e.cp.status))
        = some ("v2", some "LOCKED") ∧
      ((saveCp bucketAfterLock newBodyCp "t2").1.versions.map
          fun e => (e.version, e.cp.status))
        = [("v1", some "LOCKED"), ("v2", some "DRAFT")] ∧
      (saveCp bucketAfterLock newBodyCp "t2").1.versions.length
        = bucketAfterLock.versions.length := by
  exact ⟨by decide, by decide, by decide⟩

/-- C6 (amended).  The save-working endpoint always overwrites the most
recent version for the pair, whatever its lock status: under a
well-formed history (distinct non-empty labels), the result replaces
exactly the last entry — same label, new document — and appends
nothing. -/
theorem saveCp_overwrites_latest_regardless (b : Bucket) (cp : CpD) (now : String) (e : VEntry)
    (hlast : b.versions.getLast? = some e) (hne0 : e.version ≠ "")
    (hnd : (b.versions.map (fun x => x.version)).Nodup) :
    ∃ cp2, (saveCp b cp now).1.versions = b.versions.dropLast ++ [⟨e.version, cp2⟩] ∧
      cp2.status = cp.status ∧ cp2.validation = some (validateCp cp) ∧
      (saveCp b cp now).1.versions.length = b.versions.length := by
  have hne : b.versions ≠ [] := by
    intro h; rw [h] at hlast; exact absurd hlast (by simp)
  unfold saveCp
  dsimp only
  rw [saveCpVersion_overwrite_last b _ e hlast hne0 hnd]
  dsimp only
  refine ⟨_, rfl, rfl, rfl, ?_⟩
  rw [List.length_append, List.length_dropLast]
  have : 1 ≤ b.versions.length := List.length_pos.mpr hne
  simp
  omega

/-- C6 (amended) witness: on the concrete post-lock store, saving
replaces the last (locked) entry and nothing else. -/
theorem saveCp_overwrites_latest_witness :
    (bucketAfterLock.versions.map (fun x => x.version)).Nodup ∧
      ∃ cp2, (saveCp bucketAfterLock newBodyCp "t2").1.versions
          = bucketAfterLock.versions.dropLast ++ [⟨"v2", cp2⟩] ∧
        cp2.status = newBodyCp.status ∧ cp2.validation = some (validateCp newBodyCp) ∧
        (saveCp bucketAfterLock newBodyCp "t2").1.versions.length
          = bucketAfterLock.versions.length := by
  refine ⟨by decide, ?_⟩
  have h := saveCp_overwrites_latest_regardless bucketAfterLock newBodyCp "t2"
    ((bucketAfterLock.versions.getLast?).getD ⟨"", {}⟩)
    (by decide) (by decide) (by decide)
  have hv : ((bucketAfterLock.versions.getLast?).getD (⟨"", {}⟩ : VEntry)).version = "v2" := by
    decide
  rw [hv] at h
  exact h

/-! ### Cosine similarity over exact reals -/

theorem list_map_sum_eq (g : ℝ → ℝ) (l : List ℝ) :
    (l.map g).sum = ∑ i ∈ Finset.range l.length, g (l.getD i 0) := by
  induction l with
  | nil => simp
  | cons x xs ih =>
    rw [List.map_cons, List.sum_cons, List.length_cons, Finset.sum_range_succ']
    simp only [List.getD_cons_succ, List.getD_cons_zero, ih]
    ring

theorem list_zipWith_mul_sum_eq (a : List ℝ) :
    ∀ b : List ℝ, a.length = b.length →
      (List.zipWith (fun x y => x * y) a b).sum
        = ∑ i ∈ Finset.range a.length, a.getD i 0 * b.getD i 0 := by
  induction a with
  | nil => intro b h; simp
  | cons x xs ih =>
    intro b h
    cases b with
    | nil => simp at h
    | cons y ys =>
      have h2 : xs.length = ys.length := by simpa using h
      rw [List.zipWith_cons_cons, List.sum_cons, List.length_cons, Finset.sum_range_succ']
      simp only [List.getD_cons_succ, List.getD_cons_zero, ih ys h2]
      ring

theorem sumSq_nonneg (l : List ℝ) : 0 ≤ (l.map fun x => x * x).sum := by
  apply List.sum_nonneg
  intro x hx
  obtain ⟨y, _, rfl⟩ := List.mem_map.mp hx
  exact mul_self_nonneg y

theorem list_dot_abs_le (a b : List ℝ) (h : a.length = b.length) :
    |(List.zipWith (fun x y => x * y) a b).sum|
      ≤ Real.sqrt ((a.map fun x => x * x).sum) * Real.sqrt ((b.map fun x => x * x).sum) := by
  rw [abs_le]
  constructor
  · have hcs := Real.sum_mul_le_sqrt_mul_sqrt (Finset.range a.length)
      (fun i => a.getD i 0) (fun i => -(b.getD i 0))
    rw [list_zipWith_mul_sum_eq a b h, list_map_sum_eq _ a, list_map_sum_eq _ b, ← h]
    simp only [mul_neg, Finset.sum_neg_distrib, neg_sq] at hcs
    simp only [pow_two] at hcs
    linarith
  · have hcs := Real.sum_mul_le_sqrt_mul_sqrt (Finset.range a.length)
      (fun i => a.getD i 0) (fun i => b.getD i 0)
    rw [list_zipWith_mul_sum_eq a b h, list_map_sum_eq _ a, list_map_sum_eq _ b, ← h]
    simp only [pow_two] at hcs
    exact hcs

/-- C10.  The cosine similarity is total: its value always lies in
[-1, 1]; it only ever reads the common prefix of the two vectors (both
truncated to the shorter length); and a zero accumulated norm short-cuts
to 0 with no division. -/
theorem cosineSimilarity_total (a b : List ℝ) :
    |cosineSimilarity a b| ≤ 1 ∧
      cosineSimilarity a b
        = cosineSimilarity (a.take (min a.length b.length)) (b.take (min a.length b.length)) ∧
      ((((a.take (min a.length b.length)).map fun x => x * x).sum = 0 ∨
          (((b.take (min a.length b.length)).map fun x => x * x).sum = 0)) →
        cosineSimilarity a b = 0) := by
  refine ⟨?_, ?_, ?_⟩
  · unfold cosineSimilarity
    dsimp only
    split
    · simp
    · rename_i hnz
      push_neg at hnz
      have hA : 0 ≤ ((a.take (min a.length b.length)).map fun x => x * x).sum :=
        sumSq_nonneg _
      have hB : 0 ≤ ((b.take (min a.length b.length)).map fun x => x * x).sum :=
        sumSq_nonneg _
      have hApos : 0 < ((a.take (min a.length b.length)).map fun x => x * x).sum :=
        lt_of_le_of_ne hA (Ne.symm hnz.1)
      have hBpos : 0 < ((b.take (min a.length b.length)).map fun x => x * x).sum :=
        lt_of_le_of_ne hB (Ne.symm hnz.2)
      have hd : 0 < Real.sqrt (((a.take (min a.length b.length)).map fun x => x * x).sum)
          * Real.sqrt (((b.take (min a.length b.length)).map fun x => x * x).sum) :=
        mul_pos (Real.sqrt_pos.mpr hApos) (Real.sqrt_pos.mpr hBpos)
      rw [abs_div, abs_of_pos hd, div_le_one hd]
      apply list_dot_abs_le
      rw [List.length_take, List.length_take]
      omega
  · unfold cosineSimilarity
    have h1 : (a.take (min a.length b.length)).length = min a.length b.length := by
      rw [List.length_take]; omega
    have h2 : (b.take (min a.length b.length)).length = min a.length b.length := by
      rw [List.length_take]; omega
    simp only [h1, h2, min_self, List.take_take, min_self]
  · intro h
    unfold cosineSimilarity
    dsimp only
    rw [if_pos h]

theorem cosineSimilarity_self (v : List ℝ) (hv : ∃ x ∈ v, x ≠ 0) :
    cosineSimilarity v v = 1 := by
  unfold cosineSimilarity
  simp only [min_self, List.take_length, List.zipWith_same]
  obtain ⟨x, hx, hx0⟩ := hv
  have hpos : 0 < (v.map fun y => y * y).sum := by
    have hle : x * x ≤ (v.map fun y => y * y).sum := by
      apply List.single_le_sum
      · intro z hz
        obtain ⟨w, _, rfl⟩ := List.mem_map.mp hz
        exact mul_self_nonneg w
      · exact List.mem_map_of_mem _ hx
    have : 0 < x * x := mul_self_pos.mpr hx0
    linarith
  rw [if_neg (by simp [ne_of_gt hpos])]
  rw [Real.mul_self_sqrt (le_of_lt hpos)]
  exact div_self (ne_of_gt hpos)

theorem round4_ten_thousand : round ((10000 : ℝ)) = 10000 := by
  norm_num [round_eq]

theorem round4_one : round4 1 = 1 := by
  unfold round4
  rw [one_mul, round4_ten_thousand]
  norm_num

theorem round4_le_one (x : ℝ) (h : x ≤ 1) : round4 x ≤ 1 := by
  unfold round4
  rw [div_le_one (by norm_num)]
  have h3 : round (x * 10000) ≤ round ((10000 : ℝ)) := by
    rw [round_eq, round_eq]
    exact Int.floor_le_floor (by linarith)
  rw [round4_ten_thousand] at h3
  exact_mod_cast h3

theorem bestScoreOf_eq_one (v : List ℝ) (items : List CatalogItem) (k : ℕ)
    (hv : ∃ x ∈ v, x ≠ 0) (hmem : ∃ it ∈ items, it.emb = v) :
    bestScoreOf v items k = 1 := by
  have hall : ∀ s ∈ scoredOf v items, s.score ≤ 1 := by
    intro s hs
    obtain ⟨it, _, rfl⟩ := List.mem_map.mp hs
    apply round4_le_one
    have := (cosineSimilarity_total v it.emb).1
    rw [abs_le] at this
    exact this.2
  have hone : ∃ s ∈ scoredOf v items, s.score = 1 := by
    obtain ⟨it, hit, hemb⟩ := hmem
    refine ⟨⟨it.cuCode, it.cuTitle, round4 (cosineSimilarity v it.emb)⟩,
      List.mem_map_of_mem _ hit, ?_⟩
    rw [hemb, cosineSimilarity_self v hv, round4_one]
  have hperm := List.mergeSort_perm (scoredOf v items)
    (fun a b => decide (b.score ≤ a.score))
  have hsorted := @List.sorted_mergeSort ScoredItem
    (fun a b : ScoredItem => decide (b.score ≤ a.score))
    (fun a b c hab hbc => by
      rw [decide_eq_true_eq] at hab hbc ⊢
      exact le_trans hbc hab)
    (fun a b => by
      rcases le_total a.score b.score with h | h
      · simp [h]
      · simp [h])
    (scoredOf v items)
  unfold bestScoreOf sortedScored
  obtain ⟨s1, hs1mem, hs1⟩ := hone
  cases hms : (scoredOf v items).mergeSort (fun a b => decide (b.score ≤ a.score)) with
  | nil =>
    exfalso
    have : s1 ∈ (scoredOf v items).mergeSort (fun a b => decide (b.score ≤ a.score)) :=
      hperm.mem_iff.mpr hs1mem
    rw [hms] at this
    cases this
  | cons s0 rest =>
    have h0mem : s0 ∈ scoredOf v items := by
      apply hperm.mem_iff.mp
      rw [hms]
      exact List.mem_cons_self s0 rest
    have hle1 : s0.score ≤ 1 := hall s0 h0mem
    have hge1 : 1 ≤ s0.score := by
      have hs1in : s1 ∈ (scoredOf v items).mergeSort (fun a b => decide (b.score ≤ a.score)) :=
        hperm.mem_iff.mpr hs1mem
      rw [hms] at hs1in
      rcases List.mem_cons.mp hs1in with h | h
      · rw [← hs1, h]
      · rw [hms] at hsorted
        have := (List.pairwise_cons.mp hsorted).1 s1 h
        rw [decide_eq_true_eq] at this
        rw [← hs1]
        exact this
    have hs0 : s0.score = 1 := le_antisymm hle1 hge1
    have hhead : ((s0 :: rest).take (topKEff k)).head? = some s0 := by
      obtain ⟨m, hm⟩ : ∃ m, topKEff k = m + 1 := by
        unfold topKEff
        exact ⟨max 1 (min 10 k) - 1, by omega⟩
      rw [hm]
      rfl
    rw [hhead]
    exact hs0

/-- C8.  For every non-zero vector, the cosine similarity with itself is
exactly 1; hence comparing an input whose embedding also occurs in the
catalog yields bestScore 1 and the "ADA" (MATCH) decision for every
acceptThreshold at most 1 and every topK. -/
theorem cosine_self_one_and_match (v : List ℝ) (items : List CatalogItem) (k : ℕ) (θ : ℝ)
    (hv : ∃ x ∈ v, x ≠ 0) (hmem : ∃ it ∈ items, it.emb = v) (hθ : θ ≤ 1) :
    cosineSimilarity v v = 1 ∧ bestScoreOf v items k = 1 ∧
      compareStatus v items k θ = "ADA" := by
  have h2 := bestScoreOf_eq_one v items k hv hmem
  refine ⟨cosineSimilarity_self v hv, h2, ?_⟩
  unfold compareStatus
  rw [h2, if_pos hθ]

/-- C8 witness: the one-entry vector [1] against a catalog holding the
same embedding scores bestScore 1 and decides "ADA" at threshold 1. -/
theorem cosine_self_one_and_match_witness :
    (∃ x ∈ ([1] : List ℝ), x ≠ 0) ∧ (∃ it ∈ [catItemW], it.emb = [1]) ∧ ((1 : ℝ) ≤ 1) ∧
      (cosineSimilarity [1] [1] = 1 ∧ bestScoreOf [1] [catItemW] 3 = 1 ∧
        compareStatus [1] [catItemW] 3 1 = "ADA") :=
  ⟨⟨1, List.mem_singleton.mpr rfl, one_ne_zero⟩,
   ⟨catItemW, List.mem_singleton.mpr rfl, rfl⟩,
   le_refl 1,
   cosine_self_one_and_match [1] [catItemW] 3 1
     ⟨1, List.mem_singleton.mpr rfl, one_ne_zero⟩
     ⟨catItemW, List.mem_singleton.mpr rfl, rfl⟩
     (le_refl 1)⟩

/-- C10 witness: on the zero vector against [5] the similarity is 0 (no
division by zero) and bounded by 1 in absolute value. -/
theorem cosineSimilarity_total_witness :
    |cosineSimilarity [0] [5]| ≤ 1 ∧ cosineSimilarity [0] [5] = 0 :=
  ⟨(cosineSimilarity_total [0] [5]).1,
   (cosineSimilarity_total [0] [5]).2.2 (Or.inl (by norm_num))⟩

end Dacum
